import Mathlib

/-
Verification development for the Huffman file compressor
(src/Huffman Compression Project: huffman.h, huffman.cpp, main.h, main.cpp).

The C++ core is shallowly embedded below.  Machine bytes are Nat values
(reduced mod 256 exactly where the C++ types truncate), std::map objects are
key-sorted association lists, fallible operations (out-of-bounds vector
accesses, null shared_ptr dereferences, stream parses) return Option/Except.
Progress-bar bookkeeping (progressBar, m_bytesProcessed, m_percentCompressed,
m_prevPercent and friends) only writes to the terminal and is omitted.
-/

set_option maxRecDepth 4000

namespace huffman

/-- Tree node from huffman.h: a node is either a leaf (holding a character and
its frequency; in C++ a leaf has null children and character below 256) or a
branch holding two children (in C++ character = NOT_A_CHAR = 256). -/
inductive Node where
  | leaf : Nat → Nat → Node
  | branch : Node → Node → Node
deriving DecidableEq, Repr

/-- Frequency of a node; a branch stores the sum of the frequencies of its
children at construction (huffman.cpp, branch constructor). -/
def Node.freq : Node → Nat
  | Node.leaf _ f => f
  | Node.branch l r => l.freq + r.freq

/-- huffman.cpp popSmallest: scan the vector keeping the index of the first
element attaining the minimal frequency (strict comparison), remove it and
return it together with the rest of the vector in original order.  The
recursive formulation returns the head on ties, which matches the first
minimal index of the linear scan. -/
def popSmallest : List Node → Option (Node × List Node)
  | [] => none
  | x :: xs =>
    match popSmallest xs with
    | none => some (x, [])
    | some (m, rest) =>
      if m.freq < x.freq then some (m, x :: rest) else some (x, xs)

/-- huffman.cpp buildTree loop: while more than one node remains, pop the two
smallest nodes and push their parent at the back of the vector.  Each
iteration removes exactly one node, so a fuel of the initial length is enough
for the loop to reach its exit condition. -/
def buildLoop : List Node → Nat → List Node
  | nodes, 0 => nodes
  | nodes, fuel + 1 =>
    if nodes.length ≤ 1 then nodes
    else
      match popSmallest nodes with
      | none => nodes
      | some (l, rest1) =>
        match popSmallest rest1 with
        | none => nodes
        | some (r, rest2) => buildLoop (rest2 ++ [Node.branch l r]) fuel

/-- huffman.cpp buildTree: one leaf per frequency-table entry (std::map
iteration: ascending key order), combine until a single node remains, return
nodes[0].  On an empty table nodes[0] is an out-of-bounds vector access,
modeled as none. -/
def buildTree (freqTable : List (Nat × Nat)) : Option Node :=
  let nodes := freqTable.map fun e => Node.leaf e.1 e.2
  (buildLoop nodes nodes.length).head?

/-- huffman.cpp Encoder::buildBinMap: depth-first traversal recording, for
each leaf, the path of bits taken from the root (0 = left, 1 = right, modeled
as false/true).  The C++ mutates one shared path vector (push 0, recurse
left, flip to 1, recurse right, pop), which appends one bit per descent, so
the entry recorded at a leaf is the path argument extended along the way. -/
def buildBinMap : Node → List Bool → List (Nat × List Bool)
  | Node.leaf c _, path => [(c, path)]
  | Node.branch l r, path =>
    buildBinMap l (path ++ [false]) ++ buildBinMap r (path ++ [true])

/-- huffman.cpp Encoder::encode looks codes up with m_binMap[character]:
std::map operator[] default-constructs an empty bit vector for an absent key,
so a missing symbol yields the empty code. -/
def codeOf (binMap : List (Nat × List Bool)) (c : Nat) : List Bool :=
  (List.lookup c binMap).getD []

/-- Encoder bit-accumulator state from huffman.h: m_buffer (uint8_t),
m_curBit, m_compressedSize. -/
structure EncState where
  buffer : Nat
  curBit : Nat
  compressedSize : Nat
deriving DecidableEq, Repr

/-- One iteration of the inner loop of Encoder::encode: shift the buffer left,
or the bit in (uint8_t arithmetic, hence mod 256), and on the eighth bit emit
the buffer byte, reset m_curBit and count the emitted byte.  m_buffer is not
cleared when a byte is emitted. -/
def encodeBit (s : EncState) (b : Bool) : EncState × List Nat :=
  let buffer := (s.buffer * 2 + (if b then 1 else 0)) % 256
  let curBit := s.curBit + 1
  if curBit == 8 then
    (⟨buffer, 0, s.compressedSize + 1⟩, [buffer])
  else
    (⟨buffer, curBit, s.compressedSize⟩, [])

/-- Inner loop of Encoder::encode over the bits of one code. -/
def encodeBits (s : EncState) : List Bool → EncState × List Nat
  | [] => (s, [])
  | b :: bs =>
    let r1 := encodeBit s b
    let r2 := encodeBits r1.1 bs
    (r2.1, r1.2 ++ r2.2)

/-- huffman.cpp Encoder::encode: for each input byte append the bits of its
code to the accumulator, collecting the full bytes produced; the encoded
string replaces the chunk (returned here alongside the updated state). -/
def encode (binMap : List (Nat × List Bool)) (s : EncState) :
    List Nat → EncState × List Nat
  | [] => (s, [])
  | c :: cs =>
    let r1 := encodeBits s (codeOf binMap c)
    let r2 := encode binMap r1.1 cs
    (r2.1, r1.2 ++ r2.2)

/-- huffman.cpp Encoder::getBuffer: count one more emitted byte only when the
buffer value is nonzero, return the buffer shifted left by (8 - m_curBit)
(int arithmetic truncated back to uint8_t, hence mod 256) and clear the
buffer.  m_curBit is left unchanged. -/
def getBuffer (s : EncState) : Nat × EncState :=
  let size := if s.buffer ≠ 0 then s.compressedSize + 1 else s.compressedSize
  ((s.buffer * 2 ^ (8 - s.curBit)) % 256, ⟨0, s.curBit, size⟩)

/-- huffman.cpp Encoder::buildFreqTable accumulated over a whole input:
m_freqTable is a std::map from byte to uint32_t count, so its entries are the
occurring byte values in ascending order, each with its occurrence count
truncated to 32 bits (an entry stays present even if its count wraps). -/
def buildFreqTable (x : List Nat) : List (Nat × Nat) :=
  (List.range 256).filterMap fun c =>
    if x.count c ≠ 0 then some (c, x.count c % 2 ^ 32) else none

/-- Bits of one byte in the order Decoder::decode consumes them:
(byte >> i) & 1 for i = 7 down to 0, most significant first. -/
def byteBits (n : Nat) : List Bool :=
  [n.testBit 7, n.testBit 6, n.testBit 5, n.testBit 4,
   n.testBit 3, n.testBit 2, n.testBit 1, n.testBit 0]

/-- huffman.cpp Decoder::decode, one bit at a time.  State: the current node
pointer (none models a null shared_ptr) and m_curByte.  Per bit: if the
current node is a leaf, increment m_curByte, append its character only while
m_curByte has not passed m_fileLen, and reset the pointer to the root; then
step to the left child on 0 and the right child on 1 (stepping from a leaf
root leaves the pointer null).  Dereferencing a null pointer on a later
iteration is modeled as none. -/
def decodeBits (t : Node) (fileLen : Nat) :
    Option Node → Nat → List Bool → Option (List Nat × Option Node × Nat)
  | cur, k, [] => some ([], cur, k)
  | none, _, _ :: _ => none
  | some cur, k, b :: bs =>
    match cur with
    | Node.leaf c _ =>
      let out := if k + 1 ≤ fileLen then [c] else []
      let next : Option Node :=
        match t with
        | Node.leaf _ _ => none
        | Node.branch l r => some (if b then r else l)
      (decodeBits t fileLen next (k + 1) bs).map fun res => (out ++ res.1, res.2)
    | Node.branch l r =>
      decodeBits t fileLen (some (if b then r else l)) k bs

/-- The pointer value after the reset-and-step of Decoder::decode at a leaf:
the walk restarts at the root and immediately steps by the current bit, so the
new pointer is a child of the root — null when the root itself is a leaf. -/
def rootStep (t : Node) (b : Bool) : Option Node :=
  match t with
  | Node.leaf _ _ => none
  | Node.branch l r => some (if b then r else l)

/-- huffman.cpp Decoder::decode over one chunk of packed bytes: the outer loop
walks the bytes, the inner loop their bits from most to least significant. -/
def decode (t : Node) (fileLen : Nat) :
    Option Node → Nat → List Nat → Option (List Nat × Option Node × Nat)
  | cur, k, [] => some ([], cur, k)
  | cur, k, byte :: rest =>
    (decodeBits t fileLen cur k (byteBits byte)).bind fun r1 =>
      (decode t fileLen r1.2.1 r1.2.2 rest).map fun r2 => (r1.1 ++ r2.1, r2.2)

/-- huffman.cpp Decoder::done: m_curByte >= m_fileLen. -/
def done (fileLen curByte : Nat) : Bool :=
  fileLen ≤ curByte

/-- Repeated Encoder::encode calls, one per chunk, threading the accumulator
state and concatenating the emitted bytes in call order (the usage pattern of
encodeFile in main.cpp). -/
def encodeCalls (binMap : List (Nat × List Bool)) (s : EncState) :
    List (List Nat) → EncState × List Nat
  | [] => (s, [])
  | chunk :: rest =>
    let r1 := encode binMap s chunk
    let r2 := encodeCalls binMap r1.1 rest
    (r2.1, r1.2 ++ r2.2)

/-- Repeated Decoder::decode calls, one per chunk, threading the walker state
(the current-node pointer and m_curByte persist between calls) and
concatenating the per-call outputs (the usage pattern of decompress in
main.cpp). -/
def decodeCalls (t : Node) (fileLen : Nat) :
    Option Node → Nat → List (List Nat) → Option (List Nat × Option Node × Nat)
  | cur, k, [] => some ([], cur, k)
  | cur, k, chunk :: rest =>
    (decode t fileLen cur k chunk).bind fun r1 =>
      (decodeCalls t fileLen r1.2.1 r1.2.2 rest).map fun r2 => (r1.1 ++ r2.1, r2.2)

/-- The packed byte stream a full encoding pass produces (encodeFile in
main.cpp): the bytes emitted by Encoder::encode followed by the byte returned
by Encoder::getBuffer.  encodeFile assigns the returned uint8_t to its string
buffer and writes it, so the flush byte is appended unconditionally. -/
def compressBytes (binMap : List (Nat × List Bool)) (x : List Nat) : List Nat :=
  let r := encode binMap ⟨0, 0, 0⟩ x
  r.2 ++ [(getBuffer r.1).1]

/-- The whole round trip of the spec: build the frequency table of x, build
the tree and code table from it, encode x and flush, then decode the packed
bytes with a decoder built from the same table and expected length x.length,
collecting the decoded output.  none models the crashes of the C++ (tree
construction from an empty table, null-pointer dereference while walking). -/
def roundTrip (x : List Nat) : Option (List Nat) :=
  match buildTree (buildFreqTable x) with
  | none => none
  | some t =>
    (decode t x.length (some t) 0 (compressBytes (buildBinMap t []) x)).map
      fun r => r.1

/-- Value of a bit list read most-significant-bit first (specification
vocabulary for relating the packed bytes to the emitted bit stream). -/
def bitsVal (l : List Bool) : Nat :=
  l.foldl (fun a b => 2 * a + (if b then 1 else 0)) 0

/-- The symbols Decoder::decode appends while walking the codes of y starting
from leaf-visit count k: each visit increments the count and the character is
kept only while the count has not passed fileLen. -/
def emitted (fileLen : Nat) : List Nat → Nat → List Nat
  | [], _ => []
  | c :: cs, k => (if k + 1 ≤ fileLen then [c] else []) ++ emitted fileLen cs (k + 1)

/-- Walk a node down a bit path: left on false, right on true; walking into a
child of a leaf is the null pointer, modeled as none. -/
def follow : Node → List Bool → Option Node
  | n, [] => some n
  | Node.leaf _ _, _ :: _ => none
  | Node.branch l r, b :: bs => follow (if b then r else l) bs

/-- Characters of the leaves of a tree, left to right. -/
def Node.leaves : Node → List Nat
  | Node.leaf c _ => [c]
  | Node.branch l r => l.leaves ++ r.leaves

/-- Leaves of all trees in a worklist. -/
def leavesList (nodes : List Node) : List Nat :=
  nodes.flatMap Node.leaves

/-- All nodes of a tree (the tree itself and, recursively, the nodes of its
children); membership models "points at a node of this tree". -/
def Node.subnodes : Node → List Node
  | Node.leaf c f => [Node.leaf c f]
  | Node.branch l r => Node.branch l r :: (l.subnodes ++ r.subnodes)

end huffman

namespace container

/-
Container format from main.h / main.cpp: writeHeader, readHeader, checkSig,
writeInt, readInt, decompress.  The byte stream is a List Nat; reads that run
past the end of the stream are modeled as parse failure (none) — no claim
exercises a truncated stream.
-/

/-- Header fields from main.h (fileVersion, hash, fileSize, compressedSize,
filename, freqTable). -/
structure Header where
  versionMajor : Nat
  versionMinor : Nat
  hash : List Nat
  fileSize : Nat
  compressedSize : Nat
  filename : List Nat
  freqTable : List (Nat × Nat)
deriving DecidableEq, Repr

/-- main.h uniqueSig = "ANHC". -/
def uniqueSig : List Nat := [65, 78, 72, 67]

/-- main.cpp writeInt: four bytes, big endian, each shift truncated to a
uint8_t. -/
def writeInt (n : Nat) : List Nat :=
  [n / 2 ^ 24 % 256, n / 2 ^ 16 % 256, n / 2 ^ 8 % 256, n % 256]

/-- main.cpp writeHeader: signature, version bytes (curFileVersion = 1.1),
32-byte digest, original size, four skipped bytes where the compressed size
is patched later (zero until then), length-prefixed filename, count-prefixed
frequency table.  The one-byte length prefixes are uint8_t casts of
filename.size() and freqTable.size(), hence mod 256.  Returns the byte list
and the saved offset of the compressed-size field (tellp after the original
size, = 42). -/
def writeHeader (fileLen : Nat) (filename : List Nat)
    (freqTable : List (Nat × Nat)) (hash : List Nat) : List Nat × Nat :=
  let front := uniqueSig ++ [1, 1] ++ hash ++ writeInt fileLen
  let bytes := front ++ [0, 0, 0, 0] ++
    [filename.length % 256] ++ filename ++
    [freqTable.length % 256] ++
    freqTable.flatMap (fun e => e.1 % 256 :: writeInt e.2)
  (bytes, front.length)

/-- compress in main.cpp patches the compressed size into the saved offset
with seekp and writeInt. -/
def patchInt (bytes : List Nat) (off : Nat) (v : Nat) : List Nat :=
  bytes.take off ++ writeInt v ++ bytes.drop (off + 4)

/-- Read one byte of the stream. -/
def readByte : List Nat → Option (Nat × List Nat)
  | [] => none
  | b :: rest => some (b, rest)

/-- Read a fixed number of bytes of the stream. -/
def readBytes (n : Nat) (s : List Nat) : Option (List Nat × List Nat) :=
  if s.length < n then none else some (s.take n, s.drop n)

/-- main.cpp readInt: four bytes assembled big endian with shifts and ors. -/
def readInt (s : List Nat) : Option (Nat × List Nat) := do
  let (b0, s) ← readByte s
  let (b1, s) ← readByte s
  let (b2, s) ← readByte s
  let (b3, s) ← readByte s
  pure (b3 ||| (b2 <<< 8) ||| (b1 <<< 16) ||| (b0 <<< 24), s)

/-- Key-ordered insertion with replacement: header.freqTable[key] = value on
a std::map keyed by uint8_t. -/
def mapInsert (k v : Nat) : List (Nat × Nat) → List (Nat × Nat)
  | [] => [(k, v)]
  | (k0, v0) :: rest =>
    if k < k0 then (k, v) :: (k0, v0) :: rest
    else if k = k0 then (k, v) :: rest
    else (k0, v0) :: mapInsert k v rest

/-- Frequency-table loop of readHeader: freqTableSize iterations, each
reading a key byte and a four-byte count and storing them in the map. -/
def readTable : Nat → List (Nat × Nat) → List Nat → Option (List (Nat × Nat) × List Nat)
  | 0, acc, s => some (acc, s)
  | n + 1, acc, s => do
    let (key, s) ← readByte s
    let (v, s) ← readInt s
    readTable n (mapInsert key v acc) s

/-- main.cpp readHeader: parse the fields after the signature (checkSig has
already consumed the four signature bytes), in the order written. -/
def readHeader (s : List Nat) : Option (Header × List Nat) := do
  let (vmaj, s) ← readByte s
  let (vmin, s) ← readByte s
  let (hash, s) ← readBytes 32 s
  let (fileSize, s) ← readInt s
  let (cmpr, s) ← readInt s
  let (nameLen, s) ← readByte s
  let (fname, s) ← readBytes nameLen s
  let (tsize, s) ← readByte s
  let (tbl, s) ← readTable tsize [] s
  pure (⟨vmaj, vmin, hash, fileSize, cmpr, fname, tbl⟩, s)

/-- Failure exits of decompress in main.cpp: invalid file / signature,
invalid file version, empty frequency table. -/
inductive DecompressError where
  | invalidFile
  | invalidVersion
  | emptyFrequencyTable
deriving DecidableEq, Repr

/-- main.cpp decompress, validation pipeline and decode: check the signature
(checkSig), parse the header, reject a version other than 1.1, reject an
empty frequency table before constructing the Decoder, then build the tree
and decode the rest of the stream.  The C++ loop feeds MAX_BUFFER chunks
until done(); chunking does not change the decoded output, so the model
decodes the remaining bytes in one call.  File-system concerns (overwrite
prompts, digest comparison, deleting bad output) are outside the embedded
core. -/
def decompress (bytes : List Nat) : Except DecompressError (List Nat) :=
  if bytes.take 4 ≠ uniqueSig then Except.error DecompressError.invalidFile
  else
    match readHeader (bytes.drop 4) with
    | none => Except.error DecompressError.invalidFile
    | some (hdr, body) =>
      if hdr.versionMajor ≠ 1 ∨ hdr.versionMinor ≠ 1 then
        Except.error DecompressError.invalidVersion
      else if hdr.freqTable = [] then
        Except.error DecompressError.emptyFrequencyTable
      else
        match huffman.buildTree hdr.freqTable with
        | none => Except.error DecompressError.invalidFile
        | some t =>
          match huffman.decode t hdr.fileSize (some t) 0 body with
          | none => Except.error DecompressError.invalidFile
          | some r => Except.ok r.1

end container

/-
Helper lemmas.  Nothing below changes the embedded definitions above; the
claim theorems are at the end of the file.
-/

namespace huffman

theorem lookup_mem {β : Type} {c : Nat} {q : β} :
    ∀ {l : List (Nat × β)}, List.lookup c l = some q → (c, q) ∈ l := by
  intro l
  induction l with
  | nil => intro h; simp [List.lookup] at h
  | cons e rest ih =>
    obtain ⟨k, v⟩ := e
    intro h
    by_cases hc : c = k
    · subst hc
      simp [List.lookup] at h
      subst h
      exact List.mem_cons_self _ _
    · have hne : (c == k) = false := by simp [hc]
      rw [List.lookup, hne] at h
      exact List.mem_cons_of_mem _ (ih h)

theorem lookup_some_of_mem_keys {β : Type} {c : Nat} :
    ∀ {l : List (Nat × β)}, c ∈ l.map Prod.fst → ∃ q, List.lookup c l = some q := by
  intro l
  induction l with
  | nil => intro h; simp at h
  | cons e rest ih =>
    obtain ⟨k, v⟩ := e
    intro h
    by_cases hc : c = k
    · subst hc
      exact ⟨v, by simp [List.lookup]⟩
    · have hmem : c ∈ rest.map Prod.fst := by
        rw [List.map_cons] at h
        rcases List.mem_cons.1 h with h1 | h1
        · exact absurd h1 hc
        · exact h1
      rcases ih hmem with ⟨q, hq⟩
      have hne : (c == k) = false := by simp [hc]
      exact ⟨q, by rw [List.lookup, hne]; exact hq⟩

theorem bitsVal_foldl (l : List Bool) :
    ∀ a : Nat, l.foldl (fun a b => 2 * a + (if b then 1 else 0)) a
      = a * 2 ^ l.length + bitsVal l := by
  induction l with
  | nil => intro a; simp [bitsVal]
  | cons b bs ih =>
    intro a
    have h1 := ih (2 * a + (if b then 1 else 0))
    have h2 := ih (2 * 0 + (if b then 1 else 0))
    simp only [List.foldl_cons, bitsVal, List.length_cons] at *
    rw [h1, h2]
    ring

theorem bitsVal_cons (b : Bool) (bs : List Bool) :
    bitsVal (b :: bs) = (if b then 1 else 0) * 2 ^ bs.length + bitsVal bs := by
  have h : bitsVal (b :: bs)
      = bs.foldl (fun a c => 2 * a + (if c then 1 else 0)) (2 * 0 + (if b then 1 else 0)) := rfl
  rw [h, bitsVal_foldl]
  ring

theorem bitsVal_lt (l : List Bool) : bitsVal l < 2 ^ l.length := by
  induction l with
  | nil => simp [bitsVal]
  | cons b bs ih =>
    rw [bitsVal_cons]
    have : (if b then 1 else 0) * 2 ^ bs.length ≤ 2 ^ bs.length := by
      split <;> omega
    have hlen : 2 ^ (b :: bs).length = 2 ^ bs.length + 2 ^ bs.length := by
      simp [List.length_cons, pow_succ]; ring
    omega

theorem bitsVal_append (l1 l2 : List Bool) :
    bitsVal (l1 ++ l2) = bitsVal l1 * 2 ^ l2.length + bitsVal l2 := by
  have h : bitsVal (l1 ++ l2)
      = l2.foldl (fun a b => 2 * a + (if b then 1 else 0)) (bitsVal l1) := by
    simp [bitsVal, List.foldl_append]
  rw [h, bitsVal_foldl]

theorem bitsVal_snoc (l : List Bool) (b : Bool) :
    bitsVal (l ++ [b]) = 2 * bitsVal l + (if b then 1 else 0) := by
  rw [bitsVal_append]
  have h : bitsVal [b] = (if b then 1 else 0) := by simp [bitsVal]
  rw [h]
  simp only [List.length_singleton, pow_one]
  ring

theorem bitsVal_replicate_false (k : Nat) :
    bitsVal (List.replicate k false) = 0 := by
  induction k with
  | zero => simp [bitsVal]
  | succ n ih =>
    rw [List.replicate_succ, bitsVal_cons, ih]
    simp

theorem byteBits_bitsVal8 :
    ∀ a b c d e f g x : Bool,
      byteBits (bitsVal [a, b, c, d, e, f, g, x]) = [a, b, c, d, e, f, g, x] := by
  decide

theorem byteBits_pack {p : List Bool} (h : p.length = 8) :
    byteBits (bitsVal p) = p := by
  obtain ⟨a, t, rfl⟩ := List.exists_of_length_succ p h
  simp only [List.length_cons, Nat.succ_inj] at h
  obtain ⟨b, t, rfl⟩ := List.exists_of_length_succ t h
  simp only [List.length_cons, Nat.succ_inj] at h
  obtain ⟨c, t, rfl⟩ := List.exists_of_length_succ t h
  simp only [List.length_cons, Nat.succ_inj] at h
  obtain ⟨d, t, rfl⟩ := List.exists_of_length_succ t h
  simp only [List.length_cons, Nat.succ_inj] at h
  obtain ⟨e, t, rfl⟩ := List.exists_of_length_succ t h
  simp only [List.length_cons, Nat.succ_inj] at h
  obtain ⟨f, t, rfl⟩ := List.exists_of_length_succ t h
  simp only [List.length_cons, Nat.succ_inj] at h
  obtain ⟨g, t, rfl⟩ := List.exists_of_length_succ t h
  simp only [List.length_cons, Nat.succ_inj] at h
  obtain ⟨x, t, rfl⟩ := List.exists_of_length_succ t h
  simp only [List.length_cons, Nat.succ_inj] at h
  have ht : t = [] := List.length_eq_zero.1 h
  subst ht
  exact byteBits_bitsVal8 a b c d e f g x

end huffman

namespace huffman

theorem popSmallest_eq_none {l : List Node} : popSmallest l = none ↔ l = [] := by
  cases l with
  | nil => simp [popSmallest]
  | cons x xs =>
    simp only [popSmallest]
    constructor
    · intro h
      cases hxs : popSmallest xs with
      | none => rw [hxs] at h; simp at h
      | some p =>
        rw [hxs] at h
        obtain ⟨m, rest⟩ := p
        by_cases hlt : m.freq < x.freq <;> simp [hlt] at h
    · intro h; simp at h

theorem popSmallest_perm :
    ∀ {l : List Node} {m : Node} {rest : List Node},
      popSmallest l = some (m, rest) → (m :: rest).Perm l := by
  intro l
  induction l with
  | nil => intro m rest h; simp [popSmallest] at h
  | cons x xs ih =>
    intro m rest h
    rw [popSmallest] at h
    cases hxs : popSmallest xs with
    | none =>
      rw [hxs] at h
      have hnil : xs = [] := popSmallest_eq_none.1 hxs
      simp at h
      obtain ⟨rfl, rfl⟩ := h
      rw [hnil]
    | some p =>
      rw [hxs] at h
      obtain ⟨m0, rest0⟩ := p
      have hperm : (m0 :: rest0).Perm xs := ih hxs
      by_cases hlt : m0.freq < x.freq
      · simp only [hlt, if_true, Option.some.injEq, Prod.mk.injEq] at h
        obtain ⟨rfl, rfl⟩ := h
        exact (List.Perm.swap x m0 rest0).trans (hperm.cons x)
      · simp only [hlt, if_false, Option.some.injEq, Prod.mk.injEq] at h
        obtain ⟨rfl, rfl⟩ := h
        exact List.Perm.refl _

theorem popSmallest_length {l : List Node} {m : Node} {rest : List Node}
    (h : popSmallest l = some (m, rest)) : rest.length + 1 = l.length := by
  have := (popSmallest_perm h).length_eq
  simpa using this

theorem popSmallest_isSome {l : List Node} (h : l ≠ []) :
    ∃ m rest, popSmallest l = some (m, rest) := by
  cases hp : popSmallest l with
  | none => exact absurd (popSmallest_eq_none.1 hp) h
  | some p =>
    obtain ⟨m, rest⟩ := p
    exact ⟨m, rest, rfl⟩

theorem buildLoop_single (n : Node) : ∀ fuel, buildLoop [n] fuel = [n] := by
  intro fuel
  cases fuel with
  | zero => rfl
  | succ f => simp [buildLoop]

theorem buildLoop_branch :
    ∀ (fuel : Nat) (nodes : List Node), 2 ≤ nodes.length → nodes.length ≤ fuel + 1 →
      ∃ a b, buildLoop nodes fuel = [Node.branch a b] := by
  intro fuel
  induction fuel with
  | zero => intro nodes h2 h1; omega
  | succ f ih =>
    intro nodes h2 hle
    have hne : nodes ≠ [] := by
      intro h; rw [h] at h2; simp at h2
    obtain ⟨l, rest1, hpop1⟩ := popSmallest_isSome hne
    have hlen1 : rest1.length + 1 = nodes.length := popSmallest_length hpop1
    have hne1 : rest1 ≠ [] := by
      intro h
      rw [h] at hlen1
      simp at hlen1
      omega
    obtain ⟨r, rest2, hpop2⟩ := popSmallest_isSome hne1
    have hlen2 : rest2.length + 1 = rest1.length := popSmallest_length hpop2
    have hnotle : ¬ nodes.length ≤ 1 := by omega
    rw [buildLoop]
    simp only [hnotle, if_false, hpop1, hpop2]
    by_cases hcase : rest2 = []
    · subst hcase
      exact ⟨l, r, by simp [buildLoop_single]⟩
    · have hlen2pos : 1 ≤ rest2.length := by
        cases rest2 with
        | nil => exact absurd rfl hcase
        | cons _ _ => simp
      have h2new : 2 ≤ (rest2 ++ [Node.branch l r]).length := by
        simp
        omega
      have hlenew : (rest2 ++ [Node.branch l r]).length ≤ f + 1 := by
        simp
        omega
      exact ih _ h2new hlenew

theorem leavesList_append (l1 l2 : List Node) :
    leavesList (l1 ++ l2) = leavesList l1 ++ leavesList l2 := by
  simp [leavesList]

theorem leavesList_cons (n : Node) (ns : List Node) :
    leavesList (n :: ns) = n.leaves ++ leavesList ns := by
  simp [leavesList]

theorem leavesList_perm {l1 l2 : List Node} (h : l1.Perm l2) :
    (leavesList l1).Perm (leavesList l2) :=
  List.Perm.flatMap_right Node.leaves h

theorem buildLoop_leaves :
    ∀ (fuel : Nat) (nodes : List Node),
      (leavesList (buildLoop nodes fuel)).Perm (leavesList nodes) := by
  intro fuel
  induction fuel with
  | zero => intro nodes; exact List.Perm.refl _
  | succ f ih =>
    intro nodes
    by_cases hle : nodes.length ≤ 1
    · rw [buildLoop]
      simp [hle]
    · have hne : nodes ≠ [] := by
        intro hnil
        rw [hnil] at hle
        simp at hle
      obtain ⟨l, rest1, hpop1⟩ := popSmallest_isSome hne
      have hlen1 := popSmallest_length hpop1
      have hne1 : rest1 ≠ [] := by
        intro hnil
        rw [hnil] at hlen1
        simp at hlen1
        omega
      obtain ⟨r, rest2, hpop2⟩ := popSmallest_isSome hne1
      rw [buildLoop]
      simp only [hle, if_false, hpop1, hpop2]
      have hp1 : (leavesList (l :: rest1)).Perm (leavesList nodes) :=
        leavesList_perm (popSmallest_perm hpop1)
      have hp2 : (leavesList (r :: rest2)).Perm (leavesList rest1) :=
        leavesList_perm (popSmallest_perm hpop2)
      have step : (leavesList (rest2 ++ [Node.branch l r])).Perm (leavesList nodes) := by
        have e1 : leavesList (rest2 ++ [Node.branch l r])
            = leavesList rest2 ++ (l.leaves ++ r.leaves) := by
          rw [leavesList_append, leavesList_cons]
          simp [leavesList, Node.leaves]
        rw [e1]
        have s1 : (leavesList rest2 ++ (l.leaves ++ r.leaves)).Perm
            (l.leaves ++ (r.leaves ++ leavesList rest2)) := by
          have hpc := @List.perm_append_comm _ (leavesList rest2) (l.leaves ++ r.leaves)
          simpa [List.append_assoc] using hpc
        have s2 : (l.leaves ++ (r.leaves ++ leavesList rest2)).Perm
            (l.leaves ++ leavesList rest1) := by
          apply List.Perm.append_left
          have e2 : r.leaves ++ leavesList rest2 = leavesList (r :: rest2) :=
            (leavesList_cons r rest2).symm
          rw [e2]
          exact hp2
        have s3 : (l.leaves ++ leavesList rest1).Perm (leavesList nodes) := by
          have e3 : l.leaves ++ leavesList rest1 = leavesList (l :: rest1) :=
            (leavesList_cons l rest1).symm
          rw [e3]
          exact hp1
        exact (s1.trans s2).trans s3
      exact (ih _).trans step

theorem buildLoop_sing :
    ∀ (fuel : Nat) (nodes : List Node), nodes ≠ [] → nodes.length ≤ fuel + 1 →
      ∃ n, buildLoop nodes fuel = [n] := by
  intro fuel
  induction fuel with
  | zero =>
    intro nodes hne hlen
    cases nodes with
    | nil => exact absurd rfl hne
    | cons x xs =>
      have hxs : xs = [] := by
        rw [List.length_cons] at hlen
        exact List.length_eq_zero.1 (by omega)
      subst hxs
      exact ⟨x, rfl⟩
  | succ f ih =>
    intro nodes hne hlen
    by_cases hle : nodes.length ≤ 1
    · cases nodes with
      | nil => exact absurd rfl hne
      | cons x xs =>
        have hxs : xs = [] := by
          rw [List.length_cons] at hle
          exact List.length_eq_zero.1 (by omega)
        subst hxs
        exact ⟨x, by rw [buildLoop]; simp⟩
    · obtain ⟨l, rest1, hpop1⟩ := popSmallest_isSome hne
      have hlen1 := popSmallest_length hpop1
      have hne1 : rest1 ≠ [] := by
        intro hnil
        rw [hnil] at hlen1
        simp at hlen1
        omega
      obtain ⟨r, rest2, hpop2⟩ := popSmallest_isSome hne1
      have hlen2 := popSmallest_length hpop2
      rw [buildLoop]
      simp only [hle, if_false, hpop1, hpop2]
      apply ih
      · simp
      · simp
        omega

theorem leavesList_leafInit (tbl : List (Nat × Nat)) :
    leavesList (tbl.map fun e => Node.leaf e.1 e.2) = tbl.map Prod.fst := by
  induction tbl with
  | nil => rfl
  | cons e es ihe =>
    simp only [List.map_cons, leavesList_cons, ihe, Node.leaves]
    simp

theorem buildTree_leaves {tbl : List (Nat × Nat)} {t : Node}
    (h : buildTree tbl = some t) : t.leaves.Perm (tbl.map Prod.fst) := by
  have h2 : (buildLoop (tbl.map fun e => Node.leaf e.1 e.2)
      (tbl.map fun e => Node.leaf e.1 e.2).length).head? = some t := h
  have hne : (tbl.map fun e => Node.leaf e.1 e.2) ≠ [] := by
    intro hnil
    rw [hnil] at h2
    simp [buildLoop] at h2
  obtain ⟨n, hn⟩ := buildLoop_sing
    (tbl.map fun e => Node.leaf e.1 e.2).length _ hne (Nat.le_succ _)
  rw [hn] at h2
  simp at h2
  subst h2
  have hperm := buildLoop_leaves
    (tbl.map fun e => Node.leaf e.1 e.2).length (tbl.map fun e => Node.leaf e.1 e.2)
  rw [hn] at hperm
  rw [leavesList_leafInit] at hperm
  simpa [leavesList] using hperm

theorem buildTree_branch {tbl : List (Nat × Nat)} (h2 : 2 ≤ tbl.length) :
    ∃ a b, buildTree tbl = some (Node.branch a b) := by
  have hlen : 2 ≤ (tbl.map fun e => Node.leaf e.1 e.2).length := by
    simpa using h2
  obtain ⟨a, b, hab⟩ := buildLoop_branch
    (tbl.map fun e => Node.leaf e.1 e.2).length _ hlen (by omega)
  refine ⟨a, b, ?_⟩
  show (buildLoop (tbl.map fun e => Node.leaf e.1 e.2)
      (tbl.map fun e => Node.leaf e.1 e.2).length).head? = some (Node.branch a b)
  rw [hab]
  rfl

end huffman

namespace huffman

theorem buildBinMap_mem :
    ∀ (n : Node) (p : List Bool) {c : Nat} {q : List Bool},
      (c, q) ∈ buildBinMap n p →
      ∃ s f, q = p ++ s ∧ follow n s = some (Node.leaf c f) := by
  intro n
  induction n with
  | leaf c0 f0 =>
    intro p c q h
    simp [buildBinMap] at h
    obtain ⟨rfl, rfl⟩ := h
    exact ⟨[], f0, by simp, rfl⟩
  | branch l r ihl ihr =>
    intro p c q h
    rw [buildBinMap] at h
    rcases List.mem_append.1 h with h1 | h1
    · obtain ⟨s, f, hq, hf⟩ := ihl (p ++ [false]) h1
      refine ⟨false :: s, f, ?_, ?_⟩
      · rw [hq]
        simp
      · simpa [follow] using hf
    · obtain ⟨s, f, hq, hf⟩ := ihr (p ++ [true]) h1
      refine ⟨true :: s, f, ?_, ?_⟩
      · rw [hq]
        simp
      · simpa [follow] using hf

theorem buildBinMap_keys :
    ∀ (n : Node) (p : List Bool), (buildBinMap n p).map Prod.fst = n.leaves := by
  intro n
  induction n with
  | leaf c0 f0 => intro p; rfl
  | branch l r ihl ihr =>
    intro p
    rw [buildBinMap]
    simp [List.map_append, ihl, ihr, Node.leaves]

theorem codeOf_spec {t : Node} {c : Nat} (h : c ∈ t.leaves) :
    ∃ f, List.lookup c (buildBinMap t []) = some (codeOf (buildBinMap t []) c) ∧
      follow t (codeOf (buildBinMap t []) c) = some (Node.leaf c f) := by
  have hkeys : c ∈ (buildBinMap t []).map Prod.fst := by
    rw [buildBinMap_keys]
    exact h
  obtain ⟨q, hq⟩ := lookup_some_of_mem_keys hkeys
  have hmem : (c, q) ∈ buildBinMap t [] := lookup_mem hq
  obtain ⟨s, f, hqe, hf⟩ := buildBinMap_mem t [] hmem
  have hcode : codeOf (buildBinMap t []) c = q := by
    simp [codeOf, hq]
  rw [hcode]
  simp at hqe
  subst hqe
  exact ⟨f, hq, hf⟩

theorem buildBinMap_pairwise :
    ∀ (n : Node) (p : List Bool),
      List.Pairwise (fun e1 e2 : Nat × List Bool =>
        ¬ e1.2 <+: e2.2 ∧ ¬ e2.2 <+: e1.2) (buildBinMap n p) := by
  intro n
  induction n with
  | leaf c0 f0 => intro p; simp [buildBinMap]
  | branch l r ihl ihr =>
    intro p
    rw [buildBinMap]
    rw [List.pairwise_append]
    refine ⟨ihl _, ihr _, ?_⟩
    intro e1 h1 e2 h2
    obtain ⟨c1, q1⟩ := e1
    obtain ⟨c2, q2⟩ := e2
    obtain ⟨s1, f1, hq1, _⟩ := buildBinMap_mem l (p ++ [false]) h1
    obtain ⟨s2, f2, hq2, _⟩ := buildBinMap_mem r (p ++ [true]) h2
    dsimp only
    constructor
    · intro hpre
      rw [hq1, hq2] at hpre
      have hpre2 : p ++ (false :: s1) <+: p ++ (true :: s2) := by
        simpa [List.append_assoc] using hpre
      have := (List.prefix_append_right_inj p).1 hpre2
      have hcons := (List.cons_prefix_cons.1 this).1
      simp at hcons
    · intro hpre
      rw [hq1, hq2] at hpre
      have hpre2 : p ++ (true :: s2) <+: p ++ (false :: s1) := by
        simpa [List.append_assoc] using hpre
      have := (List.prefix_append_right_inj p).1 hpre2
      have hcons := (List.cons_prefix_cons.1 this).1
      simp at hcons

end huffman

namespace huffman

theorem encodeBits_append (l1 l2 : List Bool) :
    ∀ s : EncState,
      encodeBits s (l1 ++ l2)
        = ((encodeBits (encodeBits s l1).1 l2).1,
           (encodeBits s l1).2 ++ (encodeBits (encodeBits s l1).1 l2).2) := by
  induction l1 with
  | nil => intro s; simp [encodeBits]
  | cons b bs ih =>
    intro s
    simp only [List.cons_append, encodeBits, List.append_eq]
    rw [ih (encodeBit s b).1]
    simp [List.append_assoc]

theorem encode_eq_encodeBits (bm : List (Nat × List Bool)) :
    ∀ (x : List Nat) (s : EncState),
      encode bm s x = encodeBits s (x.flatMap (codeOf bm)) := by
  intro x
  induction x with
  | nil => intro s; simp [encode, encodeBits]
  | cons c cs ih =>
    intro s
    simp only [encode, List.flatMap_cons, encodeBits_append, ih]

theorem encodeBits_pack :
    ∀ (bs p : List Bool) (s : EncState),
      s.curBit = p.length → p.length < 8 → s.buffer < 256 →
      s.buffer % 2 ^ p.length = bitsVal p →
      ∃ p2 : List Bool,
        (encodeBits s bs).1.curBit = p2.length ∧ p2.length < 8 ∧
        (encodeBits s bs).1.buffer < 256 ∧
        (encodeBits s bs).1.buffer % 2 ^ p2.length = bitsVal p2 ∧
        (encodeBits s bs).2.flatMap byteBits ++ p2 = p ++ bs := by
  intro bs
  induction bs with
  | nil =>
    intro p s h1 h2 h3 h4
    exact ⟨p, h1, h2, h3, h4, by simp [encodeBits]⟩
  | cons b bs2 ih =>
    intro p s h1 h2 h3 h4
    have hval : bitsVal p < 2 ^ p.length := bitsVal_lt p
    have hsplit : s.buffer = 2 ^ p.length * (s.buffer / 2 ^ p.length) + bitsVal p := by
      conv_lhs => rw [← Nat.div_add_mod s.buffer (2 ^ p.length)]
      rw [h4]
    have hbit : (if b then 1 else 0) ≤ 1 := by split <;> omega
    by_cases hcase : s.curBit + 1 = 8
    · -- eighth bit: a byte is emitted and m_curBit resets
      have hplen : p.length = 7 := by omega
      have hbeq : (s.curBit + 1 == 8) = true := by simp [hcase]
      have hstep : encodeBit s b
          = (⟨(s.buffer * 2 + (if b then 1 else 0)) % 256, 0, s.compressedSize + 1⟩,
             [(s.buffer * 2 + (if b then 1 else 0)) % 256]) := by
        simp [encodeBit, hbeq]
      have hval128 : bitsVal p < 128 := by
        rw [hplen] at hval
        norm_num at hval
        exact hval
      have e1 : s.buffer * 2 + (if b then 1 else 0)
          = 256 * (s.buffer / 2 ^ p.length) + (2 * bitsVal p + (if b then 1 else 0)) := by
        conv_lhs => rw [hsplit]
        rw [hplen]
        ring
      have hvfull : (s.buffer * 2 + (if b then 1 else 0)) % 256 = bitsVal (p ++ [b]) := by
        rw [bitsVal_snoc]
        omega
      have hvlt : (s.buffer * 2 + (if b then 1 else 0)) % 256 < 256 :=
        Nat.mod_lt _ (by norm_num)
      obtain ⟨p2, i1, i2, i3, i4, i5⟩ := ih []
        ⟨(s.buffer * 2 + (if b then 1 else 0)) % 256, 0, s.compressedSize + 1⟩
        rfl (by norm_num) hvlt (by simp [bitsVal, Nat.mod_one])
      refine ⟨p2, ?_, i2, ?_, ?_, ?_⟩
      · simp only [encodeBits, hstep]
        exact i1
      · simp only [encodeBits, hstep]
        exact i3
      · simp only [encodeBits, hstep]
        exact i4
      · simp only [encodeBits, hstep]
        have hby : byteBits ((s.buffer * 2 + (if b then 1 else 0)) % 256) = p ++ [b] := by
          rw [hvfull]
          exact byteBits_pack (by simp [hplen])
        simp only [List.flatMap_cons, List.singleton_append, List.flatMap_nil]
        rw [List.append_assoc, i5, hby]
        simp
    · -- below eight bits: the bit is appended to the pending run
      have hlt8 : p.length + 1 < 8 := by omega
      have hbeq : (s.curBit + 1 == 8) = false := by
        simp only [beq_eq_false_iff_ne, ne_eq]
        omega
      have hstep : encodeBit s b
          = (⟨(s.buffer * 2 + (if b then 1 else 0)) % 256, s.curBit + 1, s.compressedSize⟩,
             []) := by
        simp [encodeBit, hbeq]
      have hwlt : 2 * bitsVal p + (if b then 1 else 0) < 2 ^ (p.length + 1) := by
        have h2p : 2 ^ (p.length + 1) = 2 * 2 ^ p.length := by ring
        omega
      have e2 : s.buffer * 2 + (if b then 1 else 0)
          = 2 ^ (p.length + 1) * (s.buffer / 2 ^ p.length)
            + (2 * bitsVal p + (if b then 1 else 0)) := by
        conv_lhs => rw [hsplit]
        ring
      have hdvd : 2 ^ (p.length + 1) ∣ 256 := by
        have h256 : (256 : Nat) = 2 ^ 8 := by norm_num
        rw [h256]
        exact pow_dvd_pow 2 (by omega)
      have hvmod : (s.buffer * 2 + (if b then 1 else 0)) % 256 % 2 ^ (p.length + 1)
          = bitsVal (p ++ [b]) := by
        rw [Nat.mod_mod_of_dvd _ hdvd, e2, Nat.mul_add_mod, Nat.mod_eq_of_lt hwlt,
          bitsVal_snoc]
      have hvlt : (s.buffer * 2 + (if b then 1 else 0)) % 256 < 256 :=
        Nat.mod_lt _ (by norm_num)
      obtain ⟨p2, i1, i2, i3, i4, i5⟩ := ih (p ++ [b])
        ⟨(s.buffer * 2 + (if b then 1 else 0)) % 256, s.curBit + 1, s.compressedSize⟩
        (by simp [h1]) (by simpa using hlt8) hvlt
        (by simpa using hvmod)
      refine ⟨p2, ?_, i2, ?_, ?_, ?_⟩
      · simp only [encodeBits, hstep]
        exact i1
      · simp only [encodeBits, hstep]
        exact i3
      · simp only [encodeBits, hstep]
        exact i4
      · simp only [encodeBits, hstep]
        simp only [List.nil_append]
        rw [i5]
        simp

end huffman

namespace huffman

theorem getBuffer_pack (s : EncState) (p : List Bool)
    (h1 : s.curBit = p.length) (h2 : p.length < 8) (h3 : s.buffer < 256)
    (h4 : s.buffer % 2 ^ p.length = bitsVal p) :
    byteBits (getBuffer s).1 = p ++ List.replicate (8 - p.length) false := by
  have hval : bitsVal p < 2 ^ p.length := bitsVal_lt p
  have hsplit : s.buffer = 2 ^ p.length * (s.buffer / 2 ^ p.length) + bitsVal p := by
    conv_lhs => rw [← Nat.div_add_mod s.buffer (2 ^ p.length)]
    rw [h4]
  have hpow : 2 ^ p.length * 2 ^ (8 - p.length) = 256 := by
    rw [← pow_add]
    have he : p.length + (8 - p.length) = 8 := by omega
    rw [he]
    norm_num
  have hwlt : bitsVal p * 2 ^ (8 - p.length) < 256 := by
    have hm := Nat.mul_lt_mul_of_lt_of_le hval (Nat.le_refl (2 ^ (8 - p.length)))
      (Nat.pos_pow_of_pos _ (by norm_num))
    rw [hpow] at hm
    exact hm
  have e1 : s.buffer * 2 ^ (8 - s.curBit)
      = 256 * (s.buffer / 2 ^ p.length) + bitsVal p * 2 ^ (8 - p.length) := by
    calc s.buffer * 2 ^ (8 - s.curBit)
        = (2 ^ p.length * (s.buffer / 2 ^ p.length) + bitsVal p) * 2 ^ (8 - p.length) := by
          rw [h1, ← hsplit]
      _ = 2 ^ p.length * 2 ^ (8 - p.length) * (s.buffer / 2 ^ p.length)
            + bitsVal p * 2 ^ (8 - p.length) := by ring
      _ = 256 * (s.buffer / 2 ^ p.length) + bitsVal p * 2 ^ (8 - p.length) := by rw [hpow]
  have hb : (getBuffer s).1 = bitsVal (p ++ List.replicate (8 - p.length) false) := by
    show (s.buffer * 2 ^ (8 - s.curBit)) % 256 = _
    rw [e1, bitsVal_append, bitsVal_replicate_false, List.length_replicate]
    omega
  rw [hb]
  refine byteBits_pack ?_
  simp
  omega

theorem compressBytes_bits (bm : List (Nat × List Bool)) (x : List Nat) :
    ∃ m, 1 ≤ m ∧
      (compressBytes bm x).flatMap byteBits
        = x.flatMap (codeOf bm) ++ List.replicate m false := by
  obtain ⟨p2, i1, i2, i3, i4, i5⟩ := encodeBits_pack (x.flatMap (codeOf bm)) [] ⟨0, 0, 0⟩
    rfl (by norm_num) (by norm_num) (by simp [bitsVal])
  refine ⟨8 - p2.length, by omega, ?_⟩
  have he : encode bm ⟨0, 0, 0⟩ x = encodeBits ⟨0, 0, 0⟩ (x.flatMap (codeOf bm)) :=
    encode_eq_encodeBits bm x ⟨0, 0, 0⟩
  show ((encode bm ⟨0, 0, 0⟩ x).2
      ++ [(getBuffer (encode bm ⟨0, 0, 0⟩ x).1).1]).flatMap byteBits = _
  rw [he, List.flatMap_append]
  have hflush : byteBits (getBuffer (encodeBits ⟨0, 0, 0⟩ (x.flatMap (codeOf bm))).1).1
      = p2 ++ List.replicate (8 - p2.length) false :=
    getBuffer_pack _ p2 i1 i2 i3 i4
  have hsingle : ([(getBuffer (encodeBits ⟨0, 0, 0⟩ (x.flatMap (codeOf bm))).1).1]
      : List Nat).flatMap byteBits
      = p2 ++ List.replicate (8 - p2.length) false := by
    simp [hflush]
  rw [hsingle, ← List.append_assoc, i5]
  simp

theorem decodeBits_nil (t : Node) (flen : Nat) (cur : Option Node) (k : Nat) :
    decodeBits t flen cur k [] = some ([], cur, k) := by
  cases cur <;> rfl

theorem decodeBits_none (t : Node) (flen : Nat) (k : Nat) (b : Bool) (bs : List Bool) :
    decodeBits t flen none k (b :: bs) = none := rfl

theorem decodeBits_cons_leaf (t : Node) (flen : Nat) (c f k : Nat) (b : Bool)
    (bs : List Bool) :
    decodeBits t flen (some (Node.leaf c f)) k (b :: bs)
      = (decodeBits t flen (rootStep t b) (k + 1) bs).map
          fun res => ((if k + 1 ≤ flen then [c] else []) ++ res.1, res.2) := rfl

theorem decodeBits_cons_branch (t : Node) (flen : Nat) (l r : Node) (k : Nat) (b : Bool)
    (bs : List Bool) :
    decodeBits t flen (some (Node.branch l r)) k (b :: bs)
      = decodeBits t flen (some (if b then r else l)) k bs := rfl

theorem decodeBits_append (t : Node) (flen : Nat) :
    ∀ (A B : List Bool) (cur : Option Node) (k : Nat),
      decodeBits t flen cur k (A ++ B)
        = (decodeBits t flen cur k A).bind fun r1 =>
            (decodeBits t flen r1.2.1 r1.2.2 B).map fun r2 => (r1.1 ++ r2.1, r2.2) := by
  intro A
  induction A with
  | nil =>
    intro B cur k
    rw [List.nil_append, decodeBits_nil]
    cases hx : decodeBits t flen cur k B with
    | none => simp [hx]
    | some r => simp [hx]
  | cons b bs ih =>
    intro B cur k
    cases cur with
    | none => simp [decodeBits_none]
    | some n =>
      cases n with
      | leaf c f =>
        rw [List.cons_append, decodeBits_cons_leaf, decodeBits_cons_leaf, ih]
        cases hx : decodeBits t flen (rootStep t b) (k + 1) bs with
        | none => simp
        | some r1 =>
          cases hy : decodeBits t flen r1.2.1 r1.2.2 B with
          | none => simp [hy]
          | some r2 => simp [hy, List.append_assoc]
      | branch l r =>
        rw [List.cons_append, decodeBits_cons_branch, decodeBits_cons_branch, ih]

theorem decode_eq_decodeBits (t : Node) (flen : Nat) :
    ∀ (bytes : List Nat) (cur : Option Node) (k : Nat),
      decode t flen cur k bytes = decodeBits t flen cur k (bytes.flatMap byteBits) := by
  intro bytes
  induction bytes with
  | nil => intro cur k; rw [List.flatMap_nil, decodeBits_nil]; rfl
  | cons byte rest ih =>
    intro cur k
    rw [List.flatMap_cons, decodeBits_append]
    show (decodeBits t flen cur k (byteBits byte)).bind _ = _
    simp only [ih]

end huffman

namespace huffman

theorem subnodes_self (n : Node) : n ∈ n.subnodes := by
  cases n <;> simp [Node.subnodes]

theorem mem_subnodes_left {l r x : Node} (hx : x ∈ l.subnodes) :
    x ∈ (Node.branch l r).subnodes := by
  rw [Node.subnodes]
  exact List.mem_cons_of_mem _ (List.mem_append_left _ hx)

theorem mem_subnodes_right {l r x : Node} (hx : x ∈ r.subnodes) :
    x ∈ (Node.branch l r).subnodes := by
  rw [Node.subnodes]
  exact List.mem_cons_of_mem _ (List.mem_append_right _ hx)

theorem subnodes_child {t a b : Node} (h : Node.branch a b ∈ t.subnodes) :
    a ∈ t.subnodes ∧ b ∈ t.subnodes := by
  induction t with
  | leaf c f => simp [Node.subnodes] at h
  | branch l r ihl ihr =>
    rw [Node.subnodes] at h
    rcases List.mem_cons.1 h with h1 | h1
    · injection h1 with h2 h3
      subst h2
      subst h3
      exact ⟨mem_subnodes_left (subnodes_self a), mem_subnodes_right (subnodes_self b)⟩
    · rcases List.mem_append.1 h1 with h2 | h2
      · obtain ⟨ha, hb⟩ := ihl h2
        exact ⟨mem_subnodes_left ha, mem_subnodes_left hb⟩
      · obtain ⟨ha, hb⟩ := ihr h2
        exact ⟨mem_subnodes_right ha, mem_subnodes_right hb⟩

theorem decodeBits_safe {t tl tr : Node} (ht : t = Node.branch tl tr) (flen : Nat) :
    ∀ (bits : List Bool) (m : Node) (k : Nat), m ∈ t.subnodes →
      ∃ out m2 k2, decodeBits t flen (some m) k bits = some (out, some m2, k2) ∧
        m2 ∈ t.subnodes := by
  intro bits
  induction bits with
  | nil =>
    intro m k hm
    exact ⟨[], m, k, decodeBits_nil t flen (some m) k, hm⟩
  | cons b bs ih =>
    intro m k hm
    have hb : Node.branch tl tr ∈ t.subnodes := by
      rw [ht]
      exact subnodes_self _
    obtain ⟨hl, hr⟩ := subnodes_child hb
    cases m with
    | leaf c f =>
      rw [decodeBits_cons_leaf]
      have hrs : rootStep t b = some (if b then tr else tl) := by
        rw [ht]
        rfl
      have hchild : (if b then tr else tl) ∈ t.subnodes := by
        cases b <;> simp [hl, hr]
      obtain ⟨out, m2, k2, hres, hm2⟩ := ih (if b then tr else tl) (k + 1) hchild
      rw [hrs, hres]
      exact ⟨(if k + 1 ≤ flen then [c] else []) ++ out, m2, k2, rfl, hm2⟩
    | branch nl nr =>
      rw [decodeBits_cons_branch]
      obtain ⟨hnl, hnr⟩ := subnodes_child hm
      have hchild : (if b then nr else nl) ∈ t.subnodes := by
        cases b <;> simp [hnl, hnr]
      exact ih _ k hchild

theorem decodeBits_count (t : Node) (flen : Nat) :
    ∀ (bits : List Bool) (cur : Option Node) (k : Nat)
      (res : List Nat × Option Node × Nat),
      decodeBits t flen cur k bits = some res →
      k ≤ res.2.2 ∧ res.1.length = min flen res.2.2 - min flen k := by
  intro bits
  induction bits with
  | nil =>
    intro cur k res h
    rw [decodeBits_nil] at h
    obtain rfl := Option.some.inj h
    refine ⟨Nat.le_refl _, ?_⟩
    simp
  | cons b bs ih =>
    intro cur k res h
    cases cur with
    | none => rw [decodeBits_none] at h; simp at h
    | some n =>
      cases n with
      | leaf c f =>
        rw [decodeBits_cons_leaf] at h
        cases hx : decodeBits t flen (rootStep t b) (k + 1) bs with
        | none => rw [hx] at h; simp at h
        | some r2 =>
          rw [hx] at h
          obtain rfl := Option.some.inj h
          obtain ⟨i1, i2⟩ := ih (rootStep t b) (k + 1) r2 hx
          constructor
          · show k ≤ r2.2.2
            omega
          · show ((if k + 1 ≤ flen then [c] else []) ++ r2.1).length
              = min flen r2.2.2 - min flen k
            rw [List.length_append]
            by_cases hk : k + 1 ≤ flen
            · rw [if_pos hk]
              simp only [List.length_singleton]
              omega
            · rw [if_neg hk]
              simp only [List.length_nil]
              omega
      | branch nl nr =>
        rw [decodeBits_cons_branch] at h
        obtain ⟨i1, i2⟩ := ih _ k res h
        exact ⟨i1, i2⟩

theorem decodeBits_follow (t : Node) (flen : Nat) :
    ∀ (q : List Bool) (n m : Node) (k : Nat) (rest : List Bool),
      follow n q = some m →
      decodeBits t flen (some n) k (q ++ rest) = decodeBits t flen (some m) k rest := by
  intro q
  induction q with
  | nil =>
    intro n m k rest h
    simp [follow] at h
    subst h
    rfl
  | cons b q2 ih =>
    intro n m k rest h
    cases n with
    | leaf c f => simp [follow] at h
    | branch l r =>
      rw [follow] at h
      rw [List.cons_append, decodeBits_cons_branch]
      exact ih _ m k rest h

theorem emitted_all (flen : Nat) :
    ∀ (y : List Nat) (k : Nat), k + y.length ≤ flen → emitted flen y k = y := by
  intro y
  induction y with
  | nil => intro k h; rfl
  | cons c y2 ih =>
    intro k h
    rw [List.length_cons] at h
    have hk : k + 1 ≤ flen := by omega
    rw [emitted, if_pos hk, ih (k + 1) (by omega)]
    rfl

theorem decode_codes {t tl tr : Node} (ht : t = Node.branch tl tr) (flen : Nat) :
    ∀ (y : List Nat) (k : Nat) (P : List Bool), P ≠ [] →
      (∀ c ∈ y, ∃ f, follow t (codeOf (buildBinMap t []) c) = some (Node.leaf c f)) →
      decodeBits t flen (some t) k (y.flatMap (codeOf (buildBinMap t [])) ++ P)
        = (decodeBits t flen (some t) (k + y.length) P).map
            fun r => (emitted flen y k ++ r.1, r.2) := by
  intro y
  induction y with
  | nil =>
    intro k P hP hcodes
    simp only [List.flatMap_nil, List.nil_append, List.length_nil, Nat.add_zero, emitted]
    cases hx : decodeBits t flen (some t) k P <;> simp
  | cons c y2 ih =>
    intro k P hP hcodes
    obtain ⟨f, hf⟩ := hcodes c (List.mem_cons_self c y2)
    rw [List.flatMap_cons, List.append_assoc,
      decodeBits_follow t flen _ _ _ k _ hf]
    have hne : y2.flatMap (codeOf (buildBinMap t [])) ++ P ≠ [] := by
      intro hnil
      rcases List.append_eq_nil.1 hnil with ⟨_, h2⟩
      exact hP h2
    obtain ⟨b, rest, hbr⟩ := List.exists_cons_of_ne_nil hne
    rw [hbr, decodeBits_cons_leaf]
    have hstep2 : decodeBits t flen (some t) (k + 1) (b :: rest)
        = decodeBits t flen (rootStep t b) (k + 1) rest := by
      rw [ht, decodeBits_cons_branch]
      rfl
    rw [← hstep2, ← hbr,
      ih (k + 1) P hP (fun c2 hc2 => hcodes c2 (List.mem_cons_of_mem c hc2))]
    have hidx : k + (c :: y2).length = k + 1 + y2.length := by
      rw [List.length_cons]
      omega
    rw [hidx]
    cases hx : decodeBits t flen (some t) (k + 1 + y2.length) P with
    | none => simp
    | some r =>
      simp [emitted, List.append_assoc]

end huffman

namespace huffman

theorem encode_append (bm : List (Nat × List Bool)) (hA hB : List Nat) (s : EncState) :
    encode bm s (hA ++ hB)
      = ((encode bm (encode bm s hA).1 hB).1,
         (encode bm s hA).2 ++ (encode bm (encode bm s hA).1 hB).2) := by
  simp only [encode_eq_encodeBits, List.flatMap_append, encodeBits_append]

theorem encodeCalls_eq_encode (bm : List (Nat × List Bool)) :
    ∀ (chunks : List (List Nat)) (s : EncState),
      encodeCalls bm s chunks = encode bm s chunks.flatten := by
  intro chunks
  induction chunks with
  | nil => intro s; rfl
  | cons chunk rest ih =>
    intro s
    rw [encodeCalls]
    rw [ih (encode bm s chunk).1]
    rw [List.flatten_cons, encode_append]

theorem decode_append (t : Node) (flen : Nat) (hA hB : List Nat) (cur : Option Node)
    (k : Nat) :
    decode t flen cur k (hA ++ hB)
      = (decode t flen cur k hA).bind fun r1 =>
          (decode t flen r1.2.1 r1.2.2 hB).map fun r2 => (r1.1 ++ r2.1, r2.2) := by
  simp only [decode_eq_decodeBits, List.flatMap_append, decodeBits_append]

theorem decodeCalls_eq_decode (t : Node) (flen : Nat) :
    ∀ (chunks : List (List Nat)) (cur : Option Node) (k : Nat),
      decodeCalls t flen cur k chunks = decode t flen cur k chunks.flatten := by
  intro chunks
  induction chunks with
  | nil =>
    intro cur k
    rw [List.flatten_nil]
    cases cur <;> rfl
  | cons chunk rest ih =>
    intro cur k
    rw [decodeCalls]
    simp only [ih]
    rw [List.flatten_cons, decode_append]

theorem decode_count (t : Node) (flen : Nat) (bytes : List Nat) (cur : Option Node)
    (k : Nat) (res : List Nat × Option Node × Nat)
    (h : decode t flen cur k bytes = some res) :
    k ≤ res.2.2 ∧ res.1.length = min flen res.2.2 - min flen k := by
  rw [decode_eq_decodeBits] at h
  exact decodeBits_count t flen _ cur k res h

theorem decodeCalls_count (t : Node) (flen : Nat) (chunks : List (List Nat))
    (cur : Option Node) (k : Nat) (res : List Nat × Option Node × Nat)
    (h : decodeCalls t flen cur k chunks = some res) :
    k ≤ res.2.2 ∧ res.1.length = min flen res.2.2 - min flen k := by
  rw [decodeCalls_eq_decode] at h
  exact decode_count t flen _ cur k res h

theorem buildFreqTable_mem_keys {x : List Nat} {c : Nat} (hc : c ∈ x) (hlt : c < 256) :
    c ∈ (buildFreqTable x).map Prod.fst := by
  have hcount : x.count c ≠ 0 := by
    have := List.count_pos_iff_mem.2 hc
    omega
  refine List.mem_map.2 ⟨(c, x.count c % 2 ^ 32), ?_, rfl⟩
  refine List.mem_filterMap.2 ⟨c, List.mem_range.2 hlt, ?_⟩
  rw [if_pos hcount]

theorem two_mem_le_length {α : Type} {l : List α} {a b : α}
    (ha : a ∈ l) (hb : b ∈ l) (hab : a ≠ b) : 2 ≤ l.length := by
  cases l with
  | nil => simp at ha
  | cons x xs =>
    cases xs with
    | nil =>
      simp at ha hb
      subst ha
      subst hb
      exact absurd rfl hab
    | cons y ys => simp

end huffman

namespace huffman

theorem roundTrip_spec (x : List Nat) (hlt : ∀ c ∈ x, c < 256)
    (a b : Nat) (ha : a ∈ x) (hb : b ∈ x) (hab : a ≠ b) :
    roundTrip x = some x := by
  have hka : a ∈ (buildFreqTable x).map Prod.fst := buildFreqTable_mem_keys ha (hlt a ha)
  have hkb : b ∈ (buildFreqTable x).map Prod.fst := buildFreqTable_mem_keys hb (hlt b hb)
  have h2 : 2 ≤ (buildFreqTable x).length := by
    have hn := two_mem_le_length hka hkb hab
    simpa using hn
  obtain ⟨tl, tr, htree⟩ := buildTree_branch h2
  generalize hT : Node.branch tl tr = t at htree
  have ht : t = Node.branch tl tr := hT.symm
  have hleaves : t.leaves.Perm ((buildFreqTable x).map Prod.fst) := buildTree_leaves htree
  have hmemleaf : ∀ c ∈ x, c ∈ t.leaves := fun c hc =>
    hleaves.mem_iff.2 (buildFreqTable_mem_keys hc (hlt c hc))
  have hcodes : ∀ c ∈ x,
      ∃ f, follow t (codeOf (buildBinMap t []) c) = some (Node.leaf c f) := by
    intro c hc
    obtain ⟨f, _, hfol⟩ := codeOf_spec (hmemleaf c hc)
    exact ⟨f, hfol⟩
  obtain ⟨m, hm1, hpack⟩ := compressBytes_bits (buildBinMap t []) x
  have hrepne : List.replicate m false ≠ [] := by
    cases m with
    | zero => omega
    | succ mm => simp
  rw [roundTrip, htree]
  show (decode t x.length (some t) 0 (compressBytes (buildBinMap t []) x)).map
      (fun r => r.1) = some x
  rw [decode_eq_decodeBits, hpack,
    decode_codes ht x.length x 0 (List.replicate m false) hrepne hcodes,
    Nat.zero_add]
  obtain ⟨outP, m2, k2, hres, _⟩ :=
    decodeBits_safe ht x.length (List.replicate m false) t x.length (subnodes_self t)
  obtain ⟨hk2, hlen0⟩ :=
    decodeBits_count t x.length (List.replicate m false) (some t) x.length
      (outP, some m2, k2) hres
  have houtP : outP = [] := by
    have hk2b : x.length ≤ k2 := hk2
    have hlen0b : outP.length = min x.length k2 - min x.length x.length := hlen0
    refine List.length_eq_zero.1 ?_
    omega
  subst houtP
  rw [hres]
  simp [emitted_all x.length x 0 (by omega)]

end huffman

namespace huffman

/-- C1 (amended): for every byte sequence x of values below 256 containing at
least two distinct byte values, building the FrequencyTable from x, the tree
and code table from it, encoding x and flushing, then decoding the packed
bytes with a Decoder built from the same table and expected length x.length
emits exactly x.  (The claim as frozen also covers the empty sequence and a
single repeated byte; those inputs crash the C++ instead, see the
counterexample.) -/
theorem C1_round_trip (x : List Nat) (hlt : ∀ c ∈ x, c < 256)
    (a b : Nat) (ha : a ∈ x) (hb : b ∈ x) (hab : a ≠ b) :
    roundTrip x = some x :=
  roundTrip_spec x hlt a b ha hb hab

/-- Witness for C1 at the concrete input of scenario 1 of the spec, the byte
string AAAB. -/
theorem C1_round_trip_witness :
    roundTrip [65, 65, 65, 66] = some [65, 65, 65, 66] :=
  C1_round_trip [65, 65, 65, 66] (by decide) 65 66 (by decide) (by decide) (by decide)

/-- C1 counterexample: for the single repeated byte input A the round trip
does not reproduce the input — the single leaf gets the empty code, so the
walk steps into a null child and the decode crashes (modeled none). -/
theorem C1_counterexample : roundTrip [65] ≠ some [65] := by decide

/-- C2: feeding chunks one by one to Encoder::encode yields the same
concatenated output bytes and the same final accumulator state as one call on
the concatenation, for every partition; likewise Decoder::decode over any
partition equals one call on the concatenation, the walker state persisting
across calls. -/
theorem C2_chunk_invariance :
    (∀ (bm : List (Nat × List Bool)) (s : EncState) (chunks : List (List Nat)),
      encodeCalls bm s chunks = encode bm s chunks.flatten) ∧
    (∀ (t : Node) (flen : Nat) (cur : Option Node) (k : Nat)
      (chunks : List (List Nat)),
      decodeCalls t flen cur k chunks = decode t flen cur k chunks.flatten) :=
  ⟨fun bm s chunks => encodeCalls_eq_encode bm chunks s,
   fun t flen cur k chunks => decodeCalls_eq_decode t flen chunks cur k⟩

/-- C3 (code bug): for the one-symbol FrequencyTable with entry 65 the tree is
a single leaf and buildBinMap records the empty bit path for symbol 65 — there
is no non-empty fallback code — and the round trip of two copies of the byte
crashes (none) instead of reproducing them. -/
theorem C3_single_symbol_empty_code :
    buildTree [(65, 1)] = some (Node.leaf 65 1) ∧
    List.lookup 65 (buildBinMap (Node.leaf 65 1) []) = some [] ∧
    roundTrip [65, 65] = none := by decide

/-- C4 counterexample: byte 1 has no entry in the code table, yet encode does
not fail — it emits nothing for it and leaves the accumulator untouched. -/
theorem C4_counterexample :
    List.lookup 1 [(0, [false])] = none ∧
    encode [(0, [false])] ⟨0, 0, 0⟩ [1] = (⟨0, 0, 0⟩, []) := by decide

/-- C4 (amended): a byte absent from the CodeTable is silently skipped:
std::map operator[] yields the default empty bit vector, so Encoder::encode
on a chunk starting with such a byte equals the encode of the chunk without
it.  No UnknownSymbol failure exists in the code. -/
theorem C4_unknown_symbol_skipped (bm : List (Nat × List Bool)) (s : EncState)
    (b : Nat) (rest : List Nat) (h : List.lookup b bm = none) :
    encode bm s (b :: rest) = encode bm s rest := by
  simp [encode, codeOf, h, encodeBits]

/-- Witness for C4 at a concrete table and chunk. -/
theorem C4_unknown_symbol_skipped_witness :
    encode [(0, [false])] ⟨0, 0, 0⟩ [1, 0] = encode [(0, [false])] ⟨0, 0, 0⟩ [0] :=
  C4_unknown_symbol_skipped [(0, [false])] ⟨0, 0, 0⟩ 1 [0] (by decide)

/-- C5 counterexample: a reachable encoder state holding three valid bits that
are all zero (after encoding three copies of the symbol coded 0): the flush
does not increment compressedSize, though the claim requires an increment by
exactly one whenever one to seven valid bits are pending. -/
theorem C5_counterexample :
    encode [(65, [true]), (66, [false])] ⟨0, 0, 0⟩ [66, 66, 66] = (⟨0, 3, 0⟩, []) ∧
    (getBuffer ⟨0, 3, 0⟩).2.compressedSize ≠ 1 := by decide

/-- C5 (amended): getBuffer always returns one byte holding the pending bits
left-justified with zero padding (zero when no bits are pending) and clears
the buffer, but it increments compressedSize if and only if the buffer
register value is nonzero — not whenever valid bits are pending.  Pending
bits that are all zero (with a zero residue) are not counted, and a nonzero
residue of the last full byte is counted even with no pending bits. -/
theorem C5_flush (s : EncState) (p : List Bool)
    (h1 : s.curBit = p.length) (h2 : p.length < 8) (h3 : s.buffer < 256)
    (h4 : s.buffer % 2 ^ p.length = bitsVal p) :
    byteBits (getBuffer s).1 = p ++ List.replicate (8 - p.length) false ∧
    (getBuffer s).2.buffer = 0 ∧
    (getBuffer s).2.compressedSize
      = s.compressedSize + (if s.buffer = 0 then 0 else 1) := by
  refine ⟨getBuffer_pack s p h1 h2 h3 h4, rfl, ?_⟩
  show (if s.buffer ≠ 0 then s.compressedSize + 1 else s.compressedSize) = _
  by_cases hb : s.buffer = 0
  · simp [hb]
  · simp [hb]

/-- Witness for C5 at the state reached after pushing bits 101. -/
theorem C5_flush_witness :
    byteBits (getBuffer ⟨5, 3, 0⟩).1 = [true, false, true] ++ List.replicate 5 false ∧
    (getBuffer ⟨5, 3, 0⟩).2.buffer = 0 ∧
    (getBuffer ⟨5, 3, 0⟩).2.compressedSize = 0 + (if (5 : Nat) = 0 then 0 else 1) :=
  C5_flush ⟨5, 3, 0⟩ [true, false, true] rfl (by decide) (by decide) (by decide)

/-- C8: for every nonempty FrequencyTable, the code table built by buildTree
plus buildBinMap assigns every symbol of the table a code, and no symbol code
is a prefix of the code of a different symbol. -/
theorem C8_prefix_free (tbl : List (Nat × Nat)) (t : Node)
    (hne : tbl ≠ []) (htree : buildTree tbl = some t) :
    (∀ c ∈ tbl.map Prod.fst, ∃ q, List.lookup c (buildBinMap t []) = some q) ∧
    (∀ (c1 c2 : Nat) (q1 q2 : List Bool), c1 ≠ c2 →
      List.lookup c1 (buildBinMap t []) = some q1 →
      List.lookup c2 (buildBinMap t []) = some q2 → ¬ q1 <+: q2) := by
  have hleaves := buildTree_leaves htree
  constructor
  · intro c hc
    have hcl : c ∈ t.leaves := hleaves.mem_iff.2 hc
    have hck : c ∈ (buildBinMap t []).map Prod.fst := by
      rw [buildBinMap_keys]
      exact hcl
    exact lookup_some_of_mem_keys hck
  · intro c1 c2 q1 q2 hcc h1 h2
    have hm1 := lookup_mem h1
    have hm2 := lookup_mem h2
    have hpw := buildBinMap_pairwise t []
    have hsym : Symmetric (fun e1 e2 : Nat × List Bool =>
        ¬ e1.2 <+: e2.2 ∧ ¬ e2.2 <+: e1.2) := by
      intro e1 e2 h
      exact ⟨h.2, h.1⟩
    have hne12 : ((c1, q1) : Nat × List Bool) ≠ (c2, q2) := by
      intro he
      exact hcc (congrArg Prod.fst he)
    exact (hpw.forall hsym hm1 hm2 hne12).1

/-- Witness for C8 at the table of scenario 1 (A three times, B once). -/
theorem C8_prefix_free_witness :
    (∀ c ∈ ([(65, 3), (66, 1)] : List (Nat × Nat)).map Prod.fst,
      ∃ q, List.lookup c
        (buildBinMap (Node.branch (Node.leaf 66 1) (Node.leaf 65 3)) []) = some q) ∧
    (∀ (c1 c2 : Nat) (q1 q2 : List Bool), c1 ≠ c2 →
      List.lookup c1
        (buildBinMap (Node.branch (Node.leaf 66 1) (Node.leaf 65 3)) []) = some q1 →
      List.lookup c2
        (buildBinMap (Node.branch (Node.leaf 66 1) (Node.leaf 65 3)) []) = some q2 →
      ¬ q1 <+: q2) :=
  C8_prefix_free [(65, 3), (66, 1)] (Node.branch (Node.leaf 66 1) (Node.leaf 65 3))
    (by decide) (by decide)

/-- C9: across every sequence of Decoder::decode calls from a fresh decoder
the total number of emitted symbols never exceeds the expected total, and once
done() is true a further decode call emits nothing. -/
theorem C9_padding_suppression :
    (∀ (t : Node) (flen : Nat) (chunks : List (List Nat))
      (res : List Nat × Option Node × Nat),
      decodeCalls t flen (some t) 0 chunks = some res → res.1.length ≤ flen) ∧
    (∀ (t : Node) (flen : Nat) (cur : Option Node) (k : Nat) (chunk : List Nat)
      (res : List Nat × Option Node × Nat),
      done flen k = true → decode t flen cur k chunk = some res → res.1 = []) := by
  constructor
  · intro t flen chunks res h
    obtain ⟨hk, hlen⟩ := decodeCalls_count t flen chunks (some t) 0 res h
    omega
  · intro t flen cur k chunk res hdone h
    have hfk : flen ≤ k := by simpa [done, decide_eq_true_eq] using hdone
    obtain ⟨hk, hlen⟩ := decode_count t flen chunk cur k res h
    refine List.length_eq_zero.1 ?_
    omega

/-- Witness for C9: a two-leaf decoder with expected total 2 fed one byte
emits two symbols (not more), and a decode call on a finished decoder
(curByte 5, total 2) emits nothing. -/
theorem C9_padding_suppression_witness :
    (([1, 0], some (Node.leaf 0 1), (7 : Nat)) :
      List Nat × Option Node × Nat).1.length ≤ 2 ∧
    (([], some (Node.leaf 0 1), (12 : Nat)) :
      List Nat × Option Node × Nat).1 = [] :=
  ⟨C9_padding_suppression.1 (Node.branch (Node.leaf 0 1) (Node.leaf 1 1)) 2
    [[160]] ([1, 0], some (Node.leaf 0 1), 7) (by decide),
   C9_padding_suppression.2 (Node.branch (Node.leaf 0 1) (Node.leaf 1 1)) 2
    (some (Node.branch (Node.leaf 0 1) (Node.leaf 1 1))) 5 [170]
    ([], some (Node.leaf 0 1), 12) (by decide) (by decide)⟩

/-- C10: for every FrequencyTable with at least two entries the decoder tree
is branch-rooted and across every sequence of decode calls the pointer stays
on a node of the tree and no null child is ever dereferenced; with exactly
one entry the root is a leaf and one bit step leaves the pointer null. -/
theorem C10_traversal_safety (tbl : List (Nat × Nat)) (t : Node) (flen : Nat)
    (h2 : 2 ≤ tbl.length) (htree : buildTree tbl = some t) :
    (∀ (chunks : List (List Nat)) (m : Node) (k : Nat), m ∈ t.subnodes →
      ∃ out m2 k2, decodeCalls t flen (some m) k chunks = some (out, some m2, k2) ∧
        m2 ∈ t.subnodes) ∧
    (∀ (c f flen2 k : Nat) (b : Bool),
      decodeBits (Node.leaf c f) flen2 (some (Node.leaf c f)) k [b]
        = some ((if k + 1 ≤ flen2 then [c] else []), none, k + 1)) := by
  obtain ⟨a0, b0, hbr⟩ := buildTree_branch h2
  rw [htree] at hbr
  have ht : t = Node.branch a0 b0 := Option.some.inj hbr
  constructor
  · intro chunks m k hm
    rw [decodeCalls_eq_decode, decode_eq_decodeBits]
    exact decodeBits_safe ht flen _ m k hm
  · intro c f flen2 k b
    rw [decodeBits_cons_leaf]
    rw [show rootStep (Node.leaf c f) b = none from rfl]
    rw [decodeBits_nil]
    simp

/-- Witness for C10 at the two-entry table with symbols 0 and 1. -/
theorem C10_traversal_safety_witness :
    (∃ out m2 k2,
      decodeCalls (Node.branch (Node.leaf 0 1) (Node.leaf 1 1)) 4
        (some (Node.branch (Node.leaf 0 1) (Node.leaf 1 1))) 0 [[128]]
        = some (out, some m2, k2) ∧
      m2 ∈ (Node.branch (Node.leaf 0 1) (Node.leaf 1 1)).subnodes) ∧
    decodeBits (Node.leaf 7 1) 3 (some (Node.leaf 7 1)) 0 [false]
      = some ([7], none, 1) :=
  ⟨(C10_traversal_safety [(0, 1), (1, 1)]
      (Node.branch (Node.leaf 0 1) (Node.leaf 1 1)) 4 (by decide) (by decide)).1
      [[128]] (Node.branch (Node.leaf 0 1) (Node.leaf 1 1)) 0 (by decide),
   (C10_traversal_safety [(0, 1), (1, 1)]
      (Node.branch (Node.leaf 0 1) (Node.leaf 1 1)) 4 (by decide) (by decide)).2
      7 1 3 0 false⟩

end huffman

namespace container

set_option maxRecDepth 100000 in
/-- C6 (code bug): writeHeader casts freqTable.size() to uint8_t, so a
256-entry table writes the count byte 0; readHeader then parses zero entries
and the round trip at maximum counts returns an empty table instead of
bit-identical field values (the compressed length is patched at the saved
offset, as compress does). -/
theorem C6_table_count_truncation :
    ((readHeader
        ((patchInt
          (writeHeader 1000 (List.replicate 255 97)
            ((List.range 256).map fun c => (c, 1)) (List.replicate 32 48)).1
          (writeHeader 1000 (List.replicate 255 97)
            ((List.range 256).map fun c => (c, 1)) (List.replicate 32 48)).2
          77).drop 4)).map fun r => r.1.freqTable) = some [] ∧
    ((List.range 256).map fun c => (c, 1)).length = 256 ∧
    ([] : List (Nat × Nat)) ≠ (List.range 256).map fun c => (c, 1) := by decide

/-- C7: tree construction from an empty FrequencyTable fails (the vector
access nodes[0] has no element, modeled none), and decompress on a container
whose parsed frequency-table section is empty refuses with the
empty-frequency-table error before any decoding work. -/
theorem C7_empty_table :
    huffman.buildTree ([] : List (Nat × Nat)) = none ∧
    ∀ (bytes : List Nat) (hdr : Header) (body : List Nat),
      bytes.take 4 = uniqueSig →
      readHeader (bytes.drop 4) = some (hdr, body) →
      hdr.versionMajor = 1 → hdr.versionMinor = 1 → hdr.freqTable = [] →
      decompress bytes = Except.error DecompressError.emptyFrequencyTable := by
  constructor
  · rfl
  · intro bytes hdr body hsig hread hmaj hmin hempty
    simp [decompress, hsig, hread, hmaj, hmin, hempty]

/-- Witness for C7 at the container written for the empty input. -/
theorem C7_empty_table_witness :
    huffman.buildTree ([] : List (Nat × Nat)) = none ∧
    decompress (writeHeader 0 [] [] (List.replicate 32 48)).1
      = Except.error DecompressError.emptyFrequencyTable :=
  ⟨C7_empty_table.1,
   C7_empty_table.2 (writeHeader 0 [] [] (List.replicate 32 48)).1
     ⟨1, 1, List.replicate 32 48, 0, 0, [], []⟩ [] (by decide) (by decide) rfl rfl rfl⟩

end container
